import Mathlib

/-!
Verification of the indb.js query/search engine (src/src/indb.js).

The IndexedDB substrate is external to the repository; it is modelled here
per its standard behaviour: containers are ordered lists of records, an
index enumerates one entry per derived key sorted by (key, primary key), a
cursor visits the live entries of its source in order, `advance(n)` skips n
entries but throws a TypeError when n is 0, `delete()` removes the record
at the cursor from the container — and with it the record's not yet visited
entries from an ongoing multiEntry index iteration — and ranges restrict by
key comparison (inclusive bounds, as IDBKeyRange with open = false).
-/

namespace Indb

/-- An IndexedDB key: a number or a string (numbers order before strings). -/
inductive JsKey where
  | knum (n : Int)
  | kstr (s : String)
deriving DecidableEq, Repr

/-- Strict code-unit-wise lexicographic order on character lists, as the
substrate compares string keys. -/
def charListLt : List Char → List Char → Bool
  | [], [] => false
  | [], _ :: _ => true
  | _ :: _, [] => false
  | a :: as, b :: bs =>
    Nat.blt a.toNat b.toNat || (a == b && charListLt as bs)

/-- Strict lexicographic order on strings. -/
def strLt (a b : String) : Bool := charListLt a.data b.data

/-- Substrate key ordering: all numbers precede all strings. -/
def JsKey.le : JsKey → JsKey → Bool
  | .knum a, .knum b => a ≤ b
  | .knum _, .kstr _ => true
  | .kstr _, .knum _ => false
  | .kstr a, .kstr b => a == b || strLt a b

/-- A JavaScript value passed as the `value` field of a query descriptor:
absent (undefined), a scalar string or number, or an object with optional
`start` and `end` fields. -/
inductive JsVal where
  | undef
  | vstr (s : String)
  | vnum (n : Int)
  | vobj (start? : Option JsKey) (end? : Option JsKey)
deriving DecidableEq, Repr

/-- Result of the `filter` helper: `nullRange` is the explicit JS `null`
(first branch), the key-range constructors mirror IDBKeyRange, and
`undefRange` is the implicit `undefined` returned when the argument is an
object with neither `start` nor `end` (the function falls off its end). -/
inductive RangeResult where
  | nullRange
  | only (v : JsKey)
  | bound (lo hi : JsKey)
  | lowerBound (lo : JsKey)
  | upperBound (hi : JsKey)
  | undefRange
deriving DecidableEq, Repr

/-- `filter(value)` from indb.js: builds an IDBKeyRange based on value type,
following the source's cascade of checks in order. -/
def filter : JsVal → RangeResult
  | .undef => .nullRange
  | .vstr s => .only (.kstr s)
  | .vnum n => .only (.knum n)
  | .vobj (some s) (some e) => .bound s e
  | .vobj (some s) none => .lowerBound s
  | .vobj none (some e) => .upperBound e
  | .vobj none none => .undefRange

/-- Substrate semantics of a range argument: which keys it admits. Both
`null` and `undefined` impose no restriction (IndexedDB treats a missing
range as matching every key); `bound` is inclusive on both sides. -/
def rangeMatches : RangeResult → JsKey → Bool
  | .nullRange, _ => true
  | .undefRange, _ => true
  | .only v, k => k == v
  | .bound lo hi, k => JsKey.le lo k && JsKey.le k hi
  | .lowerBound lo, k => JsKey.le lo k
  | .upperBound hi, k => JsKey.le k hi

/-! ### Tokenizer -/

/-- Argument to `tokens`: a string, or any non-string JavaScript value. -/
inductive JsArg where
  | jstr (s : String)
  | nonstring
deriving DecidableEq, Repr

/-- A character matched by the regex class of letters and digits.
The Unicode classes are modelled on their ASCII fragment. -/
def jsWordChar (c : Char) : Bool := c.isAlpha || c.isDigit

/-- JS `toLowerCase`, modelled character-wise on the ASCII fragment. -/
def jsToLower (s : String) : String := ⟨s.data.map Char.toLower⟩

/-- Accumulate maximal runs of word characters, as the global regex match
of a one-or-more word-character class does. `acc` holds the current run
reversed. -/
def runsAux (acc : List Char) : List Char → List String
  | [] => if acc.isEmpty then [] else [String.mk acc.reverse]
  | c :: cs =>
    if jsWordChar c then runsAux (c :: acc) cs
    else if acc.isEmpty then runsAux [] cs
    else String.mk acc.reverse :: runsAux [] cs

/-- The maximal word-character runs of a character list. -/
def extractRuns (l : List Char) : List String := runsAux [] l

/-- Insertion into a JS Set, iterated: keep an element when it has not been
seen yet. `seen` holds the elements already emitted. -/
def setDedupAux {α : Type} [BEq α] (seen : List α) : List α → List α
  | [] => []
  | a :: as =>
    if seen.contains a then setDedupAux seen as
    else a :: setDedupAux (a :: seen) as

/-- First-occurrence-order deduplication, as iterating a JS Set does. -/
def setDedup {α : Type} [BEq α] (l : List α) : List α := setDedupAux [] l

/-- `tokens(string)` from indb.js: empty for non-string or empty input,
otherwise the deduplicated maximal alphanumeric runs of the lowercased
string. -/
def tokens : JsArg → List String
  | .nonstring => []
  | .jstr s => if s = "" then [] else setDedup (extractRuns (jsToLower s).data)

/-! ### Data model: container, records, indexes -/

/-- A stored record: its primary key and an opaque payload identifying its
remaining fields. -/
structure DbRec where
  pk : JsKey
  payload : Nat
deriving DecidableEq, Repr

/-- A secondary index: the derived keys of a record. A single-valued index
yields one key per record; a multi-valued (multiEntry) index yields one key
per element of the indexed array field. -/
structure DbIndex where
  keysOf : DbRec → List JsKey

/-- A container (object store): its records in primary-key order, together
with its named indexes. -/
structure Table where
  recs : List DbRec
  indexes : List (String × DbIndex)

/-- The names in `store.indexNames`. -/
def Table.indexNames (t : Table) : List String := t.indexes.map Prod.fst

/-- Cursor entries of the store itself: each record under its primary key,
in primary order. -/
def storeEntries (t : Table) : List (JsKey × DbRec) :=
  t.recs.map (fun r => (r.pk, r))

/-- Strict key order, derived from the substrate order. -/
def JsKey.lt (a b : JsKey) : Bool := JsKey.le a b && !(a == b)

/-- Index entry order: ascending by index key, ties by primary key — the
order in which the substrate iterates an index cursor. -/
def entryLe (a b : JsKey × DbRec) : Bool :=
  JsKey.lt a.fst b.fst || (a.fst == b.fst && JsKey.le a.snd.pk b.snd.pk)

/-- Insert an entry into a list sorted by `entryLe`. -/
def insertEntry (e : JsKey × DbRec) : List (JsKey × DbRec) → List (JsKey × DbRec)
  | [] => [e]
  | f :: fs => if entryLe e f then e :: f :: fs else f :: insertEntry e fs

/-- Cursor entries of an index: one entry per derived key of each record,
sorted ascending by index key and then by primary key, as the substrate
iterates an index. -/
def indexEntries (t : Table) (ix : DbIndex) : List (JsKey × DbRec) :=
  (t.recs.flatMap (fun r => (ix.keysOf r).map (fun k => (k, r)))).foldr
    insertEntry []

/-! ### Cursor query executor (`query` in indb.js) -/

inductive QType where
  | qselect
  | qcount
  | qdelete
deriving DecidableEq, Repr

inductive Direction where
  | next
  | prev
deriving DecidableEq, Repr

/-- Transaction mode: `input.type == "delete" ? "readwrite" : "readonly"`. -/
inductive Mode where
  | readonly
  | readwrite
deriving DecidableEq, Repr

def queryMode : QType → Mode
  | .qdelete => .readwrite
  | _ => .readonly

/-- The query input object built by select/count/remove:
`{type, table, index, value, limit, offset, direction}`. The table itself is
passed separately (the table-name lookup in the substrate is not modelled). -/
structure QueryInput where
  type : QType
  index : Option String
  value : JsVal
  offset : Option Nat
  limit : Option Nat
  direction : Option Direction

/-- `input.index !== undefined && store.indexNames.contains(input.index)`:
use the named index when present and known, otherwise the store. -/
def resolveSource (t : Table) (idx : Option String) : List (JsKey × DbRec) :=
  match idx with
  | some name =>
    match t.indexes.find? (fun p => p.fst == name) with
    | some p => indexEntries t p.snd
    | none => storeEntries t
  | none => storeEntries t

/-- The entries the opened cursor visits before direction: the source's
entries restricted to `filter(input.value)`. -/
def matchedEntries (t : Table) (inp : QueryInput) : List (JsKey × DbRec) :=
  (resolveSource t inp.index).filter (fun e => rangeMatches (filter inp.value) e.fst)

/-- Matched entries in cursor order for `input.direction || "next"`. -/
def orderedEntries (t : Table) (inp : QueryInput) : List (JsKey × DbRec) :=
  match inp.direction.getD .next with
  | .next => matchedEntries t inp
  | .prev => (matchedEntries t inp).reverse

/-- The message of the TypeError the substrate throws when
`cursor.advance` is called with a count of zero. -/
def advanceZeroError : String :=
  "TypeError: advance count must be greater than zero"

/-- The cursor loop over the live entry list: an entry whose record was
already deleted during this iteration no longer exists in the source, so
the cursor never visits it (this is how `cursor.delete()` on a multiEntry
index removes the record's pending entries). On a visited entry the loop
acts (collect, or delete when `del`), increments the counter, then stops
when `input.limit !== undefined && count >= limit`. `deleted` holds the
primary keys deleted so far. -/
def cursorLoop (del : Bool) (limit : Option Nat) (count : Nat)
    (deleted : List JsKey) : List (JsKey × DbRec) → List DbRec
  | [] => []
  | e :: rest =>
    if deleted.contains e.snd.pk then cursorLoop del limit count deleted rest
    else
      match limit with
      | none => e.snd :: cursorLoop del none (count + 1)
          (if del then e.snd.pk :: deleted else deleted) rest
      | some m =>
        if count + 1 ≥ m then [e.snd]
        else e.snd :: cursorLoop del (some m) (count + 1)
            (if del then e.snd.pk :: deleted else deleted) rest

/-- The cursor phase of select/delete mode: the first callback handles the
one-shot offset. A null cursor resolves empty; otherwise, when
`input.offset !== undefined`, `cursor.advance(input.offset)` is called,
which throws for a count of zero and else resumes `offset` entries ahead;
then the loop acts on the (live) remaining entries. Returns the records
acted upon, or the thrown error. -/
def runMatched (t : Table) (inp : QueryInput) : Except String (List DbRec) :=
  let del := inp.type == QType.qdelete
  let entries := orderedEntries t inp
  match inp.offset with
  | none => .ok (cursorLoop del inp.limit 0 [] entries)
  | some o =>
    match entries with
    | [] => .ok []
    | _ :: _ =>
      if o = 0 then .error advanceZeroError
      else .ok (cursorLoop del inp.limit 0 [] (entries.drop o))

inductive QueryOut where
  | selected (rs : List DbRec)
  | counted (n : Nat)
  | deleted (n : Nat)
deriving DecidableEq, Repr

def QueryOut.asList : QueryOut → List DbRec
  | .selected rs => rs
  | _ => []

def QueryOut.asNat : QueryOut → Nat
  | .counted n => n
  | .deleted n => n
  | _ => 0

/-- `query(input)` from indb.js: the settled promise (result or failure)
paired with the table state after the call. Count mode delegates to the
substrate count-over-range; select collects the acted records; delete
counts them and removes them from the container. A failure before any
action (the advance TypeError fires on the first callback) leaves the
table unchanged. -/
def query (t : Table) (inp : QueryInput) : Except String QueryOut × Table :=
  match inp.type with
  | .qcount => (.ok (.counted (matchedEntries t inp).length), t)
  | .qselect =>
    match runMatched t inp with
    | .ok acted => (.ok (.selected acted), t)
    | .error e => (.error e, t)
  | .qdelete =>
    match runMatched t inp with
    | .ok acted =>
      (.ok (.deleted acted.length),
        { t with recs :=
            t.recs.filter (fun r => !((acted.map (fun x => x.pk)).contains r.pk)) })
    | .error e => (.error e, t)

/-- A query descriptor as passed to select/count/remove (no `type` field). -/
structure Descriptor where
  index : Option String := none
  value : JsVal := .undef
  offset : Option Nat := none
  limit : Option Nat := none
  direction : Option Direction := none

/-- `{type, ...input}`: the wrapper's spread of the descriptor onto a type. -/
def mkInput (ty : QType) (d : Descriptor) : QueryInput :=
  ⟨ty, d.index, d.value, d.offset, d.limit, d.direction⟩

/-- `select(input)`: query with type "select"; the promise settles with the
collected records or the failure. -/
def select (t : Table) (d : Descriptor) : Except String (List DbRec) :=
  Except.map QueryOut.asList (query t (mkInput .qselect d)).fst

/-- `count(input)`: query with type "count". -/
def count (t : Table) (d : Descriptor) : Except String Nat :=
  Except.map QueryOut.asNat (query t (mkInput .qcount d)).fst

/-- `remove(input)`: query with type "delete"; the settled count (or
failure) and the table afterward. -/
def remove (t : Table) (d : Descriptor) : Except String Nat × Table :=
  let r := query t (mkInput .qdelete d)
  (Except.map QueryOut.asNat r.fst, r.snd)

/-- A descriptor with `offset` and `limit` removed. -/
def Descriptor.strip (d : Descriptor) : Descriptor :=
  { d with offset := none, limit := none }

/-! ### Search engine (`search` in indb.js) -/

/-- `index.getAllKeys(word)`: the primary keys of the records one of whose
derived index keys equals the word, in primary order. -/
def getAllKeys (t : Table) (ix : DbIndex) (w : String) : List JsKey :=
  (t.recs.filter (fun r => (ix.keysOf r).contains (.kstr w))).map (fun r => r.pk)

/-- `store.get(id)`: the record with the given primary key, if any. -/
def storeGet (t : Table) (k : JsKey) : Option DbRec :=
  t.recs.find? (fun r => r.pk == k)

/-- The "and" combination loop: starting from the first word's keys, filter
by membership in each following word's keys, breaking early once empty. -/
def andLoop (acc : List JsKey) : List (List JsKey) → List JsKey
  | [] => acc
  | ks :: rest =>
    let acc' := acc.filter (fun id => ks.contains id)
    if acc'.isEmpty then acc' else andLoop acc' rest

/-- `finalIds`: union with Set-deduplication for "or", iterative
intersection from the first word's key set otherwise. -/
def combinedIds (resultsArray : List (List JsKey)) (op : String) : List JsKey :=
  if op == "or" then setDedup resultsArray.flatten
  else
    match resultsArray with
    | [] => []
    | s :: rest => andLoop s rest

/-- `search(table, index, query, op)` from indb.js, returning the records
together with the ids it hydrated via `store.get` (empty when no fetch was
issued). A get of an absent key contributes nothing. -/
def search (t : Table) (index : String) (q : String) (op : String) :
    Except String (List DbRec × List JsKey) :=
  let words := tokens (.jstr q)
  if words.isEmpty then .ok ([], [])
  else
    match t.indexes.find? (fun p => p.fst == index) with
    | none => .error "index not found in table"
    | some p =>
      let resultsArray := words.map (getAllKeys t p.snd)
      let finalIds := combinedIds resultsArray op
      if finalIds.isEmpty then .ok ([], [])
      else .ok (finalIds.filterMap (storeGet t), finalIds)

/-- `search` paired with the table state after the call: the transaction is
read-only, so the state is returned unchanged. -/
def searchRun (t : Table) (index : String) (q : String) (op : String) :
    Except String (List DbRec × List JsKey) × Table :=
  (search t index q op, t)

/-! ### Concrete fixtures used by witnesses and counterexamples -/

def wrec1 : DbRec := ⟨.knum 1, 10⟩
def wrec2 : DbRec := ⟨.knum 2, 20⟩
def wrec3 : DbRec := ⟨.knum 3, 30⟩

/-- A multi-valued index over a tokenized text field of the fixtures. -/
def wix : DbIndex :=
  ⟨fun r =>
    if r.payload = 10 then [.kstr "my", .kstr "super", .kstr "song"]
    else if r.payload = 20 then [.kstr "my", .kstr "song"]
    else [.kstr "other"]⟩

/-- A three-record container whose only index is named "words". -/
def wtab : Table := ⟨[wrec1, wrec2, wrec3], [("words", wix)]⟩

/-! ### Helper lemmas -/

theorem JsKey.le_refl (k : JsKey) : JsKey.le k k = true := by
  cases k with
  | knum n => simp [JsKey.le]
  | kstr s => simp [JsKey.le]

theorem mem_setDedupAux {α : Type} [BEq α] [LawfulBEq α]
    (l : List α) (seen : List α) (x : α) :
    x ∈ setDedupAux seen l ↔ x ∈ l ∧ x ∉ seen := by
  induction l generalizing seen with
  | nil => simp [setDedupAux]
  | cons a as ih =>
    by_cases hsa : a ∈ seen
    · rw [setDedupAux, if_pos (List.elem_iff.mpr hsa), ih]
      simp only [List.mem_cons]
      constructor
      · rintro ⟨h, hn⟩
        exact ⟨Or.inr h, hn⟩
      · rintro ⟨rfl | h, hn⟩
        · exact absurd hsa hn
        · exact ⟨h, hn⟩
    · rw [setDedupAux, if_neg (fun hc => hsa (List.elem_iff.mp hc))]
      simp only [List.mem_cons, ih]
      constructor
      · rintro (rfl | ⟨h, hn⟩)
        · exact ⟨Or.inl rfl, hsa⟩
        · simp only [List.mem_cons, not_or] at hn
          exact ⟨Or.inr h, hn.2⟩
      · rintro ⟨rfl | h, hn⟩
        · exact Or.inl rfl
        · by_cases hx : x = a
          · exact Or.inl hx
          · exact Or.inr ⟨h, by simp [hx, hn]⟩

theorem setDedupAux_nodup {α : Type} [BEq α] [LawfulBEq α]
    (l : List α) (seen : List α) : (setDedupAux seen l).Nodup := by
  induction l generalizing seen with
  | nil => simp [setDedupAux]
  | cons a as ih =>
    by_cases hsa : a ∈ seen
    · rw [setDedupAux, if_pos (List.elem_iff.mpr hsa)]
      exact ih seen
    · rw [setDedupAux, if_neg (fun hc => hsa (List.elem_iff.mp hc))]
      refine List.nodup_cons.mpr ⟨fun hmem => ?_, ih (a :: seen)⟩
      have := (mem_setDedupAux as (a :: seen) a).mp hmem
      simp at this

theorem setDedup_nodup {α : Type} [BEq α] [LawfulBEq α] (l : List α) :
    (setDedup l).Nodup := setDedupAux_nodup l []

theorem mem_setDedup {α : Type} [BEq α] [LawfulBEq α] (l : List α) (x : α) :
    x ∈ setDedup l ↔ x ∈ l := by
  simp [setDedup, mem_setDedupAux]

theorem cursorLoop_cons_notdel (del : Bool) (lim : Option Nat) (c : Nat)
    (deleted : List JsKey) (e : JsKey × DbRec) (rest : List (JsKey × DbRec))
    (h : deleted.contains e.snd.pk = false) :
    cursorLoop del lim c deleted (e :: rest)
      = match lim with
        | none => e.snd :: cursorLoop del none (c + 1)
            (if del then e.snd.pk :: deleted else deleted) rest
        | some m =>
          if c + 1 ≥ m then [e.snd]
          else e.snd :: cursorLoop del (some m) (c + 1)
              (if del then e.snd.pk :: deleted else deleted) rest := by
  show (if deleted.contains e.snd.pk = true
      then cursorLoop del lim c deleted rest
      else match lim with
        | none => e.snd :: cursorLoop del none (c + 1)
            (if del then e.snd.pk :: deleted else deleted) rest
        | some m =>
          if c + 1 ≥ m then [e.snd]
          else e.snd :: cursorLoop del (some m) (c + 1)
              (if del then e.snd.pk :: deleted else deleted) rest)
    = match lim with
      | none => e.snd :: cursorLoop del none (c + 1)
          (if del then e.snd.pk :: deleted else deleted) rest
      | some m =>
        if c + 1 ≥ m then [e.snd]
        else e.snd :: cursorLoop del (some m) (c + 1)
            (if del then e.snd.pk :: deleted else deleted) rest
  rw [if_neg (by rw [h]; exact Bool.false_ne_true)]

theorem cursorLoop_false_none (c : Nat) (l : List (JsKey × DbRec)) :
    cursorLoop false none c [] l = l.map Prod.snd := by
  induction l generalizing c with
  | nil => rfl
  | cons e rest ih =>
    rw [cursorLoop_cons_notdel false none c [] e rest rfl]
    show e.snd :: cursorLoop false none (c + 1) [] rest = _
    rw [ih (c + 1), List.map_cons]

theorem cursorLoop_del_of_nodup (lim : Option Nat) (c : Nat)
    (l : List (JsKey × DbRec)) (deleted : List JsKey)
    (hl : (l.map (fun e => e.snd.pk)).Nodup)
    (hdis : ∀ e ∈ l, e.snd.pk ∉ deleted) :
    cursorLoop true lim c deleted l = cursorLoop false lim c [] l := by
  induction l generalizing c deleted with
  | nil => rfl
  | cons e rest ih =>
    simp only [List.map_cons, List.nodup_cons] at hl
    have hmem : e.snd.pk ∉ deleted := hdis e (List.mem_cons_self e rest)
    have hdis2 : ∀ f ∈ rest, f.snd.pk ∉ e.snd.pk :: deleted := by
      intro f hf
      simp only [List.mem_cons, not_or]
      refine ⟨fun hpk => hl.1 ?_, hdis f (List.mem_cons_of_mem e hf)⟩
      exact hpk ▸ List.mem_map.mpr ⟨f, hf, rfl⟩
    have hA : deleted.contains e.snd.pk = false :=
      Bool.eq_false_iff.mpr (fun hc => hmem (List.elem_iff.mp hc))
    rw [cursorLoop_cons_notdel true lim c deleted e rest hA,
      cursorLoop_cons_notdel false lim c [] e rest rfl]
    cases lim with
    | none =>
      show e.snd :: cursorLoop true none (c + 1) (e.snd.pk :: deleted) rest
        = e.snd :: cursorLoop false none (c + 1) [] rest
      rw [ih (c + 1) (e.snd.pk :: deleted) hl.2 hdis2]
    | some m =>
      show (if c + 1 ≥ m then [e.snd]
          else e.snd :: cursorLoop true (some m) (c + 1) (e.snd.pk :: deleted) rest)
        = (if c + 1 ≥ m then [e.snd]
          else e.snd :: cursorLoop false (some m) (c + 1) [] rest)
      by_cases hstop : c + 1 ≥ m
      · rw [if_pos hstop, if_pos hstop]
      · rw [if_neg hstop, if_neg hstop,
          ih (c + 1) (e.snd.pk :: deleted) hl.2 hdis2]

theorem orderedEntries_pk_nodup (t : Table) (inp : QueryInput)
    (hsrc : ((resolveSource t inp.index).map (fun e => e.snd.pk)).Nodup) :
    ((orderedEntries t inp).map (fun e => e.snd.pk)).Nodup := by
  have hmat : ((matchedEntries t inp).map (fun e => e.snd.pk)).Nodup := by
    have hsub : List.Sublist (matchedEntries t inp) (resolveSource t inp.index) :=
      List.filter_sublist _
    exact (hsub.map (fun e => e.snd.pk)).nodup hsrc
  unfold orderedEntries
  split
  · exact hmat
  · rw [List.map_reverse]
    exact List.nodup_reverse.mpr hmat

theorem runMatched_del_eq_select (t : Table) (d : Descriptor)
    (hsrc : ((resolveSource t d.index).map (fun e => e.snd.pk)).Nodup) :
    runMatched t (mkInput .qdelete d) = runMatched t (mkInput .qselect d) := by
  have hordn : ((orderedEntries t (mkInput .qselect d)).map
      (fun e => e.snd.pk)).Nodup := orderedEntries_pk_nodup t _ hsrc
  have hloop : ∀ l2 : List (JsKey × DbRec),
      (l2.map (fun e => e.snd.pk)).Nodup →
      cursorLoop true d.limit 0 [] l2 = cursorLoop false d.limit 0 [] l2 :=
    fun l2 h2 => cursorLoop_del_of_nodup d.limit 0 l2 [] h2 (by simp)
  obtain ⟨ix, v, o, lim, dir⟩ := d
  cases o with
  | none =>
    show Except.ok (cursorLoop true lim 0 []
        (orderedEntries t ⟨QType.qdelete, ix, v, none, lim, dir⟩))
      = Except.ok (cursorLoop false lim 0 []
        (orderedEntries t ⟨QType.qselect, ix, v, none, lim, dir⟩))
    exact congrArg Except.ok
      (hloop (orderedEntries t ⟨QType.qselect, ix, v, none, lim, dir⟩) hordn)
  | some o2 =>
    have hordn2 : ((orderedEntries t
        ⟨QType.qselect, ix, v, some o2, lim, dir⟩).map
        (fun e => e.snd.pk)).Nodup := hordn
    have hloop2 : ∀ l2 : List (JsKey × DbRec),
        (l2.map (fun e => e.snd.pk)).Nodup →
        cursorLoop true lim 0 [] l2 = cursorLoop false lim 0 [] l2 := hloop
    show (match orderedEntries t ⟨QType.qselect, ix, v, some o2, lim, dir⟩ with
      | [] => (Except.ok [] : Except String (List DbRec))
      | _ :: _ =>
        if o2 = 0 then Except.error advanceZeroError
        else Except.ok (cursorLoop true lim 0 []
          ((orderedEntries t ⟨QType.qselect, ix, v, some o2, lim, dir⟩).drop o2)))
      = (match orderedEntries t ⟨QType.qselect, ix, v, some o2, lim, dir⟩ with
      | [] => Except.ok []
      | _ :: _ =>
        if o2 = 0 then Except.error advanceZeroError
        else Except.ok (cursorLoop false lim 0 []
          ((orderedEntries t ⟨QType.qselect, ix, v, some o2, lim, dir⟩).drop o2)))
    cases hE : orderedEntries t ⟨QType.qselect, ix, v, some o2, lim, dir⟩ with
    | nil => rfl
    | cons e rest =>
      rw [hE] at hordn2
      by_cases h0 : o2 = 0
      · rw [if_pos h0, if_pos h0]
      · rw [if_neg h0, if_neg h0, hloop2 ((e :: rest).drop o2)
          (((List.drop_sublist o2 (e :: rest)).map (fun f => f.snd.pk)).nodup hordn2)]

theorem orderedEntries_length (t : Table) (inp : QueryInput) :
    (orderedEntries t inp).length = (matchedEntries t inp).length := by
  unfold orderedEntries
  split
  · rfl
  · rw [List.length_reverse]

theorem resolveSource_unknown (t : Table) (name : String)
    (h : name ∉ t.indexNames) : resolveSource t (some name) = storeEntries t := by
  have hf : t.indexes.find? (fun p => p.fst == name) = none := by
    rw [List.find?_eq_none]
    intro p hp hbeq
    exact h (by
      rw [Table.indexNames]
      exact List.mem_map.mpr ⟨p, hp, by simpa using hbeq⟩)
  show (match t.indexes.find? (fun p => p.fst == name) with
    | some p => indexEntries t p.snd
    | none => storeEntries t) = storeEntries t
  rw [hf]

theorem query_ext (t : Table) (inp inp' : QueryInput)
    (htype : inp.type = inp'.type)
    (hoff : inp.offset = inp'.offset)
    (hlim : inp.limit = inp'.limit)
    (hdir : inp.direction = inp'.direction)
    (hmatch : matchedEntries t inp = matchedEntries t inp') :
    query t inp = query t inp' := by
  have hord : orderedEntries t inp = orderedEntries t inp' := by
    unfold orderedEntries
    rw [hmatch, hdir]
  have hrun : runMatched t inp = runMatched t inp' := by
    unfold runMatched
    rw [hord, hlim, hoff, htype]
  unfold query
  rw [hmatch, hrun, htype]

theorem query_unknown_index (t : Table) (inp : QueryInput) (name : String)
    (h1 : inp.index = some name) (h2 : name ∉ t.indexNames) :
    query t inp = query t { inp with index := none } := by
  apply query_ext t inp { inp with index := none } rfl rfl rfl rfl
  unfold matchedEntries
  rw [h1, resolveSource_unknown t name h2]
  rfl

theorem query_value_emptyObj (t : Table) (inp : QueryInput)
    (h : inp.value = .vobj none none) :
    query t inp = query t { inp with value := .undef } := by
  apply query_ext t inp { inp with value := .undef } rfl rfl rfl rfl
  unfold matchedEntries
  apply List.filter_congr
  intro e he
  rw [h]
  rfl

theorem all_congr_list {α : Type} :
    ∀ (l : List α) (p q : α → Bool), (∀ a ∈ l, p a = q a) → l.all p = l.all q
  | [], _, _, _ => rfl
  | a :: as, p, q, h => by
    have hhead := h a (List.mem_cons_self a as)
    have htail := all_congr_list as p q fun x hx => h x (List.mem_cons_of_mem a hx)
    rw [List.all_cons, List.all_cons, hhead, htail]

theorem all_map_list {α β : Type} (f : α → β) (l : List α) (p : β → Bool) :
    (l.map f).all p = l.all (fun a => p (f a)) := by
  induction l with
  | nil => rfl
  | cons a as ih => rw [List.map_cons, List.all_cons, List.all_cons, ih]

theorem pk_mem_getAllKeys (t : Table) (ix : DbIndex) (w : String) (r : DbRec)
    (hnodup : (t.recs.map (fun x => x.pk)).Nodup) (hr : r ∈ t.recs) :
    r.pk ∈ getAllKeys t ix w ↔ (ix.keysOf r).contains (.kstr w) = true := by
  constructor
  · intro hmem
    obtain ⟨x, hx, hpk⟩ := List.mem_map.mp hmem
    obtain ⟨hxmem, hxc⟩ := List.mem_filter.mp hx
    have hxr : x = r := List.inj_on_of_nodup_map hnodup hxmem hr hpk
    rwa [hxr] at hxc
  · intro hc
    exact List.mem_map.mpr ⟨r, List.mem_filter.mpr ⟨hr, hc⟩, rfl⟩

theorem contains_getAllKeys (t : Table) (ix : DbIndex) (w : String) (r : DbRec)
    (hnodup : (t.recs.map (fun x => x.pk)).Nodup) (hr : r ∈ t.recs) :
    ((getAllKeys t ix w).contains r.pk) = ((ix.keysOf r).contains (.kstr w)) := by
  have hiff := pk_mem_getAllKeys t ix w r hnodup hr
  cases hc : (ix.keysOf r).contains (.kstr w)
  · rw [hc] at hiff
    simp only [Bool.false_eq_true, iff_false] at hiff
    exact Bool.eq_false_iff.mpr (fun htrue => hiff (List.elem_iff.mp htrue))
  · rw [hc] at hiff
    simp only [iff_true] at hiff
    exact List.elem_iff.mpr hiff

theorem find?_pk_nodup (l : List DbRec)
    (hn : (l.map (fun x => x.pk)).Nodup) (r : DbRec) (hr : r ∈ l) :
    l.find? (fun x => x.pk == r.pk) = some r := by
  induction l with
  | nil => cases hr
  | cons a rest ih =>
    simp only [List.map_cons, List.nodup_cons] at hn
    by_cases hpa : (a.pk == r.pk) = true
    · rw [List.find?_cons_of_pos rest hpa]
      have hpk : a.pk = r.pk := by simpa using hpa
      rcases List.mem_cons.mp hr with rfl | hrrest
      · rfl
      · exact absurd (hpk ▸ List.mem_map.mpr ⟨r, hrrest, rfl⟩) hn.1
    · rw [List.find?_cons_of_neg rest hpa]
      rcases List.mem_cons.mp hr with rfl | hrrest
      · exact absurd (by simp) hpa
      · exact ih hn.2 hrrest

theorem storeGet_pk (t : Table)
    (hnodup : (t.recs.map (fun x => x.pk)).Nodup) (r : DbRec)
    (hr : r ∈ t.recs) : storeGet t r.pk = some r :=
  find?_pk_nodup t.recs hnodup r hr

theorem storeGet_eq_some (t : Table) (k : JsKey) (r : DbRec)
    (h : storeGet t k = some r) : r ∈ t.recs ∧ r.pk = k := by
  refine ⟨List.mem_of_find?_eq_some h, ?_⟩
  have := List.find?_some h
  simpa using this

theorem filterMap_storeGet_pks (t : Table)
    (hnodup : (t.recs.map (fun x => x.pk)).Nodup)
    (l : List DbRec) (hsub : ∀ r ∈ l, r ∈ t.recs) :
    (l.map (fun r => r.pk)).filterMap (storeGet t) = l := by
  induction l with
  | nil => rfl
  | cons r rest ih =>
    have h1 : storeGet t r.pk = some r :=
      storeGet_pk t hnodup r (hsub r (List.mem_cons_self r rest))
    rw [List.map_cons, List.filterMap_cons_some h1,
      ih (fun x hx => hsub x (List.mem_cons_of_mem r hx))]

theorem nodup_filterMap_storeGet (t : Table) (ids : List JsKey)
    (h : ids.Nodup) : (ids.filterMap (storeGet t)).Nodup := by
  induction ids with
  | nil => simp
  | cons id rest ih =>
    cases hg : storeGet t id with
    | none =>
      rw [List.filterMap_cons_none hg]
      exact ih (List.nodup_cons.mp h).2
    | some r =>
      rw [List.filterMap_cons_some hg]
      refine List.nodup_cons.mpr ⟨fun hmem => ?_, ih (List.nodup_cons.mp h).2⟩
      obtain ⟨id2, hid2, hgr⟩ := List.mem_filterMap.mp hmem
      have h1 := storeGet_eq_some t id r hg
      have h2 := storeGet_eq_some t id2 r hgr
      have hid : id = id2 := by rw [← h1.2, h2.2]
      exact (List.nodup_cons.mp h).1 (hid ▸ hid2)

theorem andLoop_eq_filter (acc : List JsKey) (rest : List (List JsKey)) :
    andLoop acc rest
      = acc.filter (fun id => rest.all (fun ks => ks.contains id)) := by
  induction rest generalizing acc with
  | nil =>
    show acc = acc.filter
      (fun id => List.all ([] : List (List JsKey)) (fun ks => ks.contains id))
    rw [show (fun (id : JsKey) =>
          List.all ([] : List (List JsKey)) (fun ks => ks.contains id))
        = (fun _ => true) from rfl]
    exact (List.filter_true acc).symm
  | cons ks rest ih =>
    show (if (acc.filter (fun id => ks.contains id)).isEmpty
        then acc.filter (fun id => ks.contains id)
        else andLoop (acc.filter (fun id => ks.contains id)) rest) = _
    by_cases he : (acc.filter (fun id => ks.contains id)).isEmpty
    · rw [if_pos he]
      have hnil : acc.filter (fun id => ks.contains id) = [] :=
        List.isEmpty_iff.mp he
      rw [hnil]
      symm
      rw [List.filter_eq_nil_iff]
      intro a ha hall
      rw [List.all_cons] at hall
      have hks : ks.contains a = true := (Bool.and_eq_true_iff.mp hall).1
      have : a ∈ acc.filter (fun id => ks.contains id) :=
        List.mem_filter.mpr ⟨ha, hks⟩
      rw [hnil] at this
      cases this
    · rw [if_neg he, ih, List.filter_filter]
      apply List.filter_congr
      intro a ha
      rw [List.all_cons, Bool.and_comm]

theorem search_nil (t : Table) (ixname : String) (q : String) (op : String)
    (htok : tokens (.jstr q) = []) :
    search t ixname q op = .ok ([], []) := by
  unfold search
  rw [htok]
  rfl

theorem search_cons (t : Table) (ixname : String) (q : String) (op : String)
    (w0 : String) (ws : List String) (pr : String × DbIndex)
    (htok : tokens (.jstr q) = w0 :: ws)
    (hfind : t.indexes.find? (fun p => p.fst == ixname) = some pr) :
    search t ixname q op =
      (if (combinedIds ((w0 :: ws).map (getAllKeys t pr.snd)) op).isEmpty
       then .ok ([], [])
       else .ok
         ((combinedIds ((w0 :: ws).map (getAllKeys t pr.snd)) op).filterMap
            (storeGet t),
          combinedIds ((w0 :: ws).map (getAllKeys t pr.snd)) op)) := by
  unfold search
  rw [htok, hfind]
  rfl

theorem hydrate_filter_case (t : Table)
    (hnodup : (t.recs.map (fun x => x.pk)).Nodup) (p : DbRec → Bool) :
    (if ((t.recs.filter p).map (fun r => r.pk)).isEmpty
      then (Except.ok ([], []) : Except String (List DbRec × List JsKey))
      else .ok (((t.recs.filter p).map (fun r => r.pk)).filterMap (storeGet t),
        (t.recs.filter p).map (fun r => r.pk)))
    = .ok (t.recs.filter p, (t.recs.filter p).map (fun r => r.pk)) := by
  by_cases hfe : t.recs.filter p = []
  · rw [hfe]
    rfl
  · have hne : ((t.recs.filter p).map (fun r => r.pk)).isEmpty = false := by
      cases hF : t.recs.filter p with
      | nil => exact absurd hF hfe
      | cons a l => rfl
    rw [hne, if_neg Bool.false_ne_true,
      filterMap_storeGet_pks t hnodup _ (fun r hr => (List.mem_filter.mp hr).1)]

/-! ### Claims -/

/-- C2 (code_bug): on a non-empty table, a descriptor with `limit = 0` does
not stop before the first candidate record: the cursor loop acts first and
checks the limit after, so `select` returns the first matching record and
`remove` deletes it and returns 1 — where the spec requires an empty result
and zero deletions. -/
theorem C2_limit_zero_acts_once :
    select wtab { limit := some 0 } = .ok [wrec1]
    ∧ (remove wtab { limit := some 0 }).fst = .ok 1
    ∧ (remove wtab { limit := some 0 }).snd.recs = [wrec2, wrec3] := by
  refine ⟨rfl, rfl, by decide⟩

/-- C3 (code_bug): the first page of the claimed pagination scheme,
`select {offset: 0, limit: l}`, does not return the first l records: on any
non-empty matched set the first cursor callback calls
`cursor.advance(input.offset)` with a count of 0, which the substrate
rejects with a TypeError, so the page fails — here shown on the fixture
with l = 2, whose full select holds three records, the first two of which
the page should have returned. -/
theorem C3_offset_zero_page_fails :
    select wtab { offset := some 0, limit := some 2 } = .error advanceZeroError
    ∧ select wtab {} = .ok [wrec1, wrec2, wrec3] :=
  ⟨rfl, rfl⟩

/-- C1 (corrected, counterexample): on a table whose only index is
"words", select, count and remove naming the unknown index "ghost" report
no error: they fall back to the container and iterate it fully. -/
theorem C1_unknown_index_counterexample :
    select wtab { index := some "ghost" } = .ok [wrec1, wrec2, wrec3]
    ∧ count wtab { index := some "ghost" } = .ok 3
    ∧ (remove wtab { index := some "ghost" }).fst = .ok 3 :=
  ⟨rfl, rfl, rfl⟩

/-- C1 (amended): a query descriptor naming an index not defined on the
table is not reported as an error; select, count and remove silently fall
back to the container's primary ordering, behaving exactly as the same
descriptor with no index named. -/
theorem C1_unknown_index_falls_back (t : Table) (d : Descriptor) (name : String)
    (h1 : d.index = some name) (h2 : name ∉ t.indexNames) :
    select t d = select t { d with index := none }
    ∧ count t d = count t { d with index := none }
    ∧ remove t d = remove t { d with index := none } := by
  have hq : ∀ ty : QType,
      query t (mkInput ty d) = query t (mkInput ty { d with index := none }) :=
    fun ty => query_unknown_index t (mkInput ty d) name h1 h2
  refine ⟨?_, ?_, ?_⟩
  · unfold select
    rw [hq .qselect]
  · unfold count
    rw [hq .qcount]
  · unfold remove
    rw [hq .qdelete]

/-- C1 witness for the amended claim, at the "ghost" index of the fixture
table. -/
theorem C1_unknown_index_witness :
    ({ index := some "ghost" } : Descriptor).index = some "ghost"
    ∧ "ghost" ∉ wtab.indexNames
    ∧ select wtab { index := some "ghost" }
        = select wtab { ({ index := some "ghost" } : Descriptor) with index := none } :=
  ⟨rfl, by decide,
    (C1_unknown_index_falls_back wtab { index := some "ghost" } "ghost" rfl
      (by decide)).1⟩

/-- C4 (confirmed): count ignores `offset` and `limit` entirely — it equals
the count of the stripped descriptor, and it equals the length of the
sequence select returns for the stripped descriptor (which, stripped of
offset and limit, always succeeds). -/
theorem C4_count_ignores_offset_limit (t : Table) (d : Descriptor) :
    count t d = count t d.strip
    ∧ ∃ xs, select t d.strip = .ok xs ∧ count t d = .ok xs.length := by
  refine ⟨rfl,
    (orderedEntries t (mkInput .qselect d.strip)).map Prod.snd, ?_, ?_⟩
  · have hsel : select t d.strip = .ok (cursorLoop false none 0 []
        (orderedEntries t (mkInput .qselect d.strip))) := rfl
    rw [hsel, cursorLoop_false_none]
  · have hcnt : count t d
        = .ok (matchedEntries t (mkInput .qcount d)).length := rfl
    rw [hcnt]
    congr 1
    rw [List.length_map, orderedEntries_length]
    rfl

/-- C5 (corrected, counterexample): a descriptor whose value is an object
with neither `start` nor `end` is not rejected: `filter` falls through and
returns undefined, and the operation succeeds, treating the descriptor as
matching everything. -/
theorem C5_empty_object_counterexample :
    filter (.vobj none none) = .undefRange
    ∧ select wtab { value := .vobj none none } = .ok [wrec1, wrec2, wrec3]
    ∧ count wtab { value := .vobj none none } = .ok 3 :=
  ⟨rfl, rfl, rfl⟩

/-- C5 (amended): a value object with neither `start` nor `end` makes
`filter` return undefined, which the substrate treats as no restriction:
select, count and remove behave exactly as with an absent value, matching
everything; no validation error is raised. -/
theorem C5_empty_object_matches_everything (t : Table) (d : Descriptor)
    (h : d.value = .vobj none none) :
    select t d = select t { d with value := .undef }
    ∧ count t d = count t { d with value := .undef }
    ∧ remove t d = remove t { d with value := .undef } := by
  have hq : ∀ ty : QType,
      query t (mkInput ty d) = query t (mkInput ty { d with value := .undef }) :=
    fun ty => query_value_emptyObj t (mkInput ty d) h
  refine ⟨?_, ?_, ?_⟩
  · unfold select
    rw [hq .qselect]
  · unfold count
    rw [hq .qcount]
  · unfold remove
    rw [hq .qdelete]

/-- C5 witness for the amended claim. -/
theorem C5_empty_object_witness :
    ({ value := .vobj none none } : Descriptor).value = .vobj none none
    ∧ select wtab { value := .vobj none none }
        = select wtab { ({ value := .vobj none none } : Descriptor) with value := .undef } :=
  ⟨rfl,
    (C5_empty_object_matches_everything wtab { value := .vobj none none } rfl).1⟩

/-- C9 (corrected, counterexample): remove does not ignore `offset` and
`limit`: with `limit = 1` on the three-record fixture it deletes a single
record and leaves two, while select on the descriptor stripped of offset
and limit returns all three records (whose complement is empty). -/
theorem C9_remove_counterexample :
    (remove wtab { limit := some 1 }).fst = .ok 1
    ∧ select wtab (Descriptor.strip { limit := some 1 })
        = .ok [wrec1, wrec2, wrec3]
    ∧ (remove wtab { limit := some 1 }).snd.recs = [wrec2, wrec3] :=
  ⟨rfl, rfl, by decide⟩

/-- C9 (amended): whenever the resolved iteration source yields each record
at most once — always true of the container's primary ordering and of
single-valued indexes, and exactly what a multiEntry source can violate
(a deleted record's pending duplicate entries vanish from the live
iteration) — remove(T,d) behaves as select(T,d) with the same descriptor:
it returns the number of selected records, afterward the container holds
exactly the records whose primary key was not selected, and when select
fails remove fails identically, deleting nothing. -/
theorem C9_remove_deletes_selected (t : Table) (d : Descriptor)
    (hsrc : ((resolveSource t d.index).map (fun e => e.snd.pk)).Nodup) :
    (remove t d).fst = Except.map List.length (select t d)
    ∧ (∀ xs, select t d = .ok xs →
        (remove t d).snd.recs
          = t.recs.filter (fun r => !((xs.map (fun s => s.pk)).contains r.pk)))
    ∧ (∀ e, select t d = .error e → (remove t d).snd = t) := by
  have hrm : runMatched t (mkInput .qdelete d)
      = runMatched t (mkInput .qselect d) := runMatched_del_eq_select t d hsrc
  cases hq : runMatched t (mkInput .qselect d) with
  | ok acted =>
    have hdq : runMatched t (mkInput .qdelete d) = .ok acted := hrm.trans hq
    have hsel : select t d = .ok acted := by
      unfold select query
      rw [hq]
      rfl
    have hremf : (remove t d).fst = .ok acted.length := by
      unfold remove query
      rw [hdq]
      rfl
    have hrems : (remove t d).snd
        = { t with recs :=
            t.recs.filter (fun r => !((acted.map (fun x => x.pk)).contains r.pk)) } := by
      unfold remove query
      rw [hdq]
      rfl
    refine ⟨?_, ?_, ?_⟩
    · rw [hremf, hsel]
      rfl
    · intro xs hxs
      rw [hsel] at hxs
      cases hxs
      rw [hrems]
    · intro e he
      rw [hsel] at he
      cases he
  | error e2 =>
    have hdq : runMatched t (mkInput .qdelete d) = .error e2 := hrm.trans hq
    have hsel : select t d = .error e2 := by
      unfold select query
      rw [hq]
      rfl
    have hremf : (remove t d).fst = .error e2 := by
      unfold remove query
      rw [hdq]
      rfl
    have hrems : (remove t d).snd = t := by
      unfold remove query
      rw [hdq]
      rfl
    refine ⟨?_, ?_, ?_⟩
    · rw [hremf, hsel]
      rfl
    · intro xs hxs
      rw [hsel] at hxs
      cases hxs
    · intro e3 he
      rw [hsel] at he
      cases he
      exact hrems

/-- C9 witness for the amended claim: the store-source fixture has
duplicate-free primary keys, and a limited remove resolves with the length
of the equally-limited select. -/
theorem C9_remove_witness :
    ((resolveSource wtab ({ limit := some 1 } : Descriptor).index).map
        (fun e => e.snd.pk)).Nodup
    ∧ (remove wtab { limit := some 1 }).fst
        = Except.map List.length (select wtab { limit := some 1 }) :=
  ⟨by decide,
    (C9_remove_deletes_selected wtab { limit := some 1 } (by decide)).1⟩

/-- C10 (confirmed): select and count open their transaction read-only, a
read-only query leaves the container unchanged, and search leaves the
container unchanged. -/
theorem C10_read_ops_no_modification :
    queryMode .qselect = .readonly
    ∧ queryMode .qcount = .readonly
    ∧ (∀ (t : Table) (inp : QueryInput),
        queryMode inp.type = .readonly → (query t inp).snd = t)
    ∧ (∀ (t : Table) (ixname q op : String), (searchRun t ixname q op).snd = t) := by
  refine ⟨rfl, rfl, ?_, fun t ixname q op => rfl⟩
  intro t inp h
  obtain ⟨ty, ix, v, o, m, dir⟩ := inp
  cases ty with
  | qcount => rfl
  | qdelete => exact Mode.noConfusion h
  | qselect =>
    cases hq : runMatched t ⟨QType.qselect, ix, v, o, m, dir⟩ with
    | ok acted =>
      unfold query
      rw [hq]
    | error e =>
      unfold query
      rw [hq]

/-- C10 witness: a concrete select leaves the fixture table untouched. -/
theorem C10_read_ops_witness :
    queryMode (mkInput .qselect {}).type = .readonly
    ∧ (query wtab (mkInput .qselect {})).snd = wtab :=
  ⟨rfl, C10_read_ops_no_modification.2.2.1 wtab (mkInput .qselect {}) rfl⟩

/-- C6 (confirmed): the range builder maps an absent value to no
restriction (all keys match), a scalar to the exact range matching only
that key, an object with both bounds to the inclusive closed range, and an
object with one bound to the inclusive one-sided range — inclusivity shown
by the bounds themselves matching. -/
theorem C6_filter_range_semantics :
    (∀ k, rangeMatches (filter .undef) k = true)
    ∧ (∀ s k, rangeMatches (filter (.vstr s)) k = (k == .kstr s))
    ∧ (∀ n k, rangeMatches (filter (.vnum n)) k = (k == .knum n))
    ∧ (∀ a b k, rangeMatches (filter (.vobj (some a) (some b))) k
        = (JsKey.le a k && JsKey.le k b))
    ∧ (∀ a k, rangeMatches (filter (.vobj (some a) none)) k = JsKey.le a k)
    ∧ (∀ b k, rangeMatches (filter (.vobj none (some b))) k = JsKey.le k b)
    ∧ (∀ a, rangeMatches (filter (.vobj (some a) none)) a = true)
    ∧ (∀ b, rangeMatches (filter (.vobj none (some b))) b = true)
    ∧ (∀ a b, rangeMatches (filter (.vobj (some a) (some b))) a = JsKey.le a b)
    ∧ (∀ a b, rangeMatches (filter (.vobj (some a) (some b))) b = JsKey.le a b) := by
  refine ⟨fun k => rfl, fun s k => rfl, fun n k => rfl, fun a b k => rfl,
    fun a k => rfl, fun b k => rfl, fun a => JsKey.le_refl a,
    fun b => JsKey.le_refl b, ?_, ?_⟩
  · intro a b
    show (JsKey.le a a && JsKey.le a b) = JsKey.le a b
    rw [JsKey.le_refl]
    exact Bool.true_and _
  · intro a b
    show (JsKey.le a b && JsKey.le b b) = JsKey.le a b
    rw [JsKey.le_refl]
    exact Bool.and_true _

/-- C8 (confirmed): the tokenizer lowercases, splits on runs of
non-alphanumeric characters, deduplicates preserving first occurrence, and
returns an empty sequence (not an error) on empty or non-string input; the
three specified examples hold and every output is duplicate-free. -/
theorem C8_tokens_spec :
    tokens (.jstr "hello, world!") = ["hello", "world"]
    ∧ tokens (.jstr "") = []
    ∧ tokens (.jstr "a a b") = ["a", "b"]
    ∧ tokens .nonstring = []
    ∧ (∀ x : JsArg, (tokens x).Nodup) := by
  refine ⟨by decide, rfl, by decide, rfl, ?_⟩
  intro x
  cases x with
  | nonstring => simp [tokens]
  | jstr s =>
    by_cases h : s = ""
    · simp [tokens, h]
    · simp [tokens, h, setDedup_nodup]

/-- C7 (confirmed): on a table with duplicate-free primary keys and a
found multi-valued index, search with op "and" returns exactly the records
whose derived key sets contain every token of the query (the iterative
intersection starting from the first token's key set), search with op "or"
returns a duplicate-free result holding exactly the records containing at
least one token, and whenever the combined key set is empty the result is
the empty sequence with no record fetched. -/
theorem C7_search_semantics (t : Table) (ixname : String)
    (pr : String × DbIndex) (q : String)
    (hfind : t.indexes.find? (fun p => p.fst == ixname) = some pr)
    (hnodup : (t.recs.map (fun x => x.pk)).Nodup) :
    (tokens (.jstr q) ≠ [] →
      search t ixname q "and"
        = .ok (t.recs.filter
            (fun r => (tokens (.jstr q)).all
              (fun w => (pr.snd.keysOf r).contains (.kstr w))),
          (t.recs.filter
            (fun r => (tokens (.jstr q)).all
              (fun w => (pr.snd.keysOf r).contains (.kstr w)))).map
            (fun r => r.pk)))
    ∧ (∃ rs ids, search t ixname q "or" = .ok (rs, ids)
        ∧ rs.Nodup
        ∧ ∀ r, r ∈ rs ↔ r ∈ t.recs
            ∧ ∃ w ∈ tokens (.jstr q),
              (pr.snd.keysOf r).contains (.kstr w) = true)
    ∧ (∀ op, combinedIds ((tokens (.jstr q)).map (getAllKeys t pr.snd)) op = []
        → search t ixname q op = .ok ([], [])) := by
  refine ⟨?_, ?_, ?_⟩
  · intro hw
    rcases htok : tokens (.jstr q) with _ | ⟨w0, ws⟩
    · exact absurd htok hw
    · have hids : combinedIds ((w0 :: ws).map (getAllKeys t pr.snd)) "and"
          = (t.recs.filter
              (fun r => (w0 :: ws).all
                (fun w => (pr.snd.keysOf r).contains (.kstr w)))).map
            (fun r => r.pk) := by
        show andLoop (getAllKeys t pr.snd w0) (ws.map (getAllKeys t pr.snd)) = _
        rw [andLoop_eq_filter]
        rw [show getAllKeys t pr.snd w0
            = (t.recs.filter
                (fun r => (pr.snd.keysOf r).contains (.kstr w0))).map
              (fun r => r.pk) from rfl]
        rw [List.filter_map]
        congr 1
        rw [List.filter_filter]
        apply List.filter_congr
        intro r hr
        show ((ws.map (getAllKeys t pr.snd)).all (fun ks => ks.contains r.pk)
            && (pr.snd.keysOf r).contains (.kstr w0))
          = (w0 :: ws).all (fun w => (pr.snd.keysOf r).contains (.kstr w))
        have h1 : (ws.map (getAllKeys t pr.snd)).all (fun ks => ks.contains r.pk)
            = ws.all (fun w => (pr.snd.keysOf r).contains (.kstr w)) := by
          rw [all_map_list]
          exact all_congr_list ws _ _
            (fun w hwm => contains_getAllKeys t pr.snd w r hnodup hr)
        rw [h1, List.all_cons]
        exact Bool.and_comm _ _
      rw [search_cons t ixname q "and" w0 ws pr htok hfind, hids]
      exact hydrate_filter_case t hnodup _
  · rcases htok : tokens (.jstr q) with _ | ⟨w0, ws⟩
    · refine ⟨[], [], search_nil t ixname q "or" htok, List.nodup_nil, ?_⟩
      intro r
      simp
    · have horid : combinedIds ((w0 :: ws).map (getAllKeys t pr.snd)) "or"
          = setDedup (((w0 :: ws).map (getAllKeys t pr.snd)).flatten) := rfl
      refine ⟨(combinedIds ((w0 :: ws).map (getAllKeys t pr.snd)) "or").filterMap
          (storeGet t),
        combinedIds ((w0 :: ws).map (getAllKeys t pr.snd)) "or", ?_, ?_, ?_⟩
      · rw [search_cons t ixname q "or" w0 ws pr htok hfind]
        by_cases he :
            (combinedIds ((w0 :: ws).map (getAllKeys t pr.snd)) "or").isEmpty
        · rw [if_pos he, List.isEmpty_iff.mp he]
          rfl
        · rw [if_neg he]
      · rw [horid]
        exact nodup_filterMap_storeGet t _ (setDedup_nodup _)
      · intro r
        constructor
        · intro hmem
          obtain ⟨id, hid, hg⟩ := List.mem_filterMap.mp hmem
          obtain ⟨hrrecs, hpk⟩ := storeGet_eq_some t id r hg
          refine ⟨hrrecs, ?_⟩
          rw [horid] at hid
          have hflat := (mem_setDedup _ _).mp hid
          obtain ⟨ks, hks, hidks⟩ := List.mem_flatten.mp hflat
          obtain ⟨w, hwmem, rfl⟩ := List.mem_map.mp hks
          refine ⟨w, hwmem, ?_⟩
          rw [← hpk] at hidks
          exact (pk_mem_getAllKeys t pr.snd w r hnodup hrrecs).mp hidks
        · rintro ⟨hrrecs, w, hwmem, hkc⟩
          have hmemk : r.pk ∈ getAllKeys t pr.snd w :=
            (pk_mem_getAllKeys t pr.snd w r hnodup hrrecs).mpr hkc
          have hflat : r.pk ∈ (((w0 :: ws).map (getAllKeys t pr.snd)).flatten) :=
            List.mem_flatten.mpr ⟨getAllKeys t pr.snd w,
              List.mem_map.mpr ⟨w, hwmem, rfl⟩, hmemk⟩
          have hidor : r.pk ∈ combinedIds ((w0 :: ws).map (getAllKeys t pr.snd)) "or" := by
            rw [horid]
            exact (mem_setDedup _ _).mpr hflat
          exact List.mem_filterMap.mpr
            ⟨r.pk, hidor, storeGet_pk t hnodup r hrrecs⟩
  · intro op hcomb
    rcases htok : tokens (.jstr q) with _ | ⟨w0, ws⟩
    · exact search_nil t ixname q op htok
    · rw [htok] at hcomb
      rw [search_cons t ixname q op w0 ws pr htok hfind, hcomb]
      rfl

/-- C7 witness: on the fixture table, the "and" search for "My super song"
returns exactly the record whose key set holds all three tokens. -/
theorem C7_search_witness :
    tokens (.jstr "My super song") ≠ []
    ∧ search wtab "words" "My super song" "and"
        = .ok ([wrec1], [.knum 1]) := by
  have h := (C7_search_semantics wtab "words" ("words", wix) "My super song"
    rfl (by decide)).1 (by decide)
  refine ⟨by decide, ?_⟩
  rw [h]
  rfl

end Indb
